import Mathlib

/-!
Shallow embedding of `e_shuffle.py` (rragundez/elitist-shuffle).

The source has two core functions:

* `elitist_shuffle(items, inequality)` (lines 68-88): computes
  `weights = np.power(np.linspace(1, 0, num=len(items), endpoint=False), inequality)`,
  L1-normalizes them (`weights / np.linalg.norm(weights, ord=1)`), and returns
  `list(np.random.choice(items, size=len(items), replace=False, p=weights))`.

* `shuffle_simulations(shuffle_func, n_items, n_simulations)` (lines 11-32):
  `landing_counts = defaultdict(Counter)`, `freq_factor = 1 / n_simulations`, and for
  each of `n_simulations` trials builds `items = list(range(n_items))`, sets
  `s_items = shuffle_func(items) or items`, and for each `item in range(n_items)`
  increments `landing_counts[item][s_items.index(item)] += freq_factor`.

Real-number arithmetic of the Python floats is idealized as exact arithmetic: the
weight pipeline is embedded over `ℝ` (the exponent may be any real), the accumulated
frequencies over `ℚ`.

The randomness consumed by `np.random.choice` is split into two views, both faithful
to sampling without replacement with probabilities `p`:

* a value-level view `sampleWOR`, which receives the random draws as a stream
  `picks : ℕ → ℕ` selecting one remaining element of the pool per step (the draw is
  reduced modulo the current pool size, so every stream denotes a run); any run of
  the sampler is some such stream;
* a distribution-level view `drawProb`, the probability that successive draws,
  each proportional to the weights renormalized over the not-yet-drawn elements,
  produce a given output list.
-/

namespace EShuffle

/-! ### Weight pipeline of `elitist_shuffle` (lines 81-85) -/

/-- Entry `i` of `np.linspace(1, 0, num=n, endpoint=False)`: the step is
`(0 - 1)/n`, so the value is `1 - i/n`. -/
noncomputable def baseScore (n i : ℕ) : ℝ := 1 - (i : ℝ) / (n : ℝ)

/-- Entry `i` of `np.power(np.linspace(1, 0, num=n, endpoint=False), inequality)`:
the base score raised to the real exponent `inequality`. -/
noncomputable def rawWeight (n : ℕ) (inequality : ℝ) (i : ℕ) : ℝ :=
  Real.rpow (baseScore n i) inequality

/-- The value `np.linalg.norm(weights, ord=1)`: the sum of absolute values of the
raw weights. -/
noncomputable def l1Norm (n : ℕ) (inequality : ℝ) : ℝ :=
  ∑ i ∈ Finset.range n, |rawWeight n inequality i|

/-- Entry `i` of `weights / np.linalg.norm(weights, ord=1)` (line 85): the sampling
probability vector handed to `np.random.choice` as `p`. -/
noncomputable def normWeight (n : ℕ) (inequality : ℝ) (i : ℕ) : ℝ :=
  rawWeight n inequality i / l1Norm n inequality

/-! ### Value-level sampling without replacement (line 86-88) -/

/-- One run of weighted sampling without replacement, driven by the stream of
random draws: at each step, draw `picks 0 % pool.length` among the remaining
elements, emit it, and remove it from the pool. The fuel argument starts at the
pool length, matching `size=len(items)` in `np.random.choice`. -/
def sampleWORAux {α : Type} : ℕ → List α → (ℕ → ℕ) → List α
  | 0, _, _ => []
  | _ + 1, [], _ => []
  | fuel + 1, a :: as, picks =>
      let l := a :: as
      let i : Fin l.length := ⟨picks 0 % l.length, Nat.mod_lt _ (Nat.succ_pos as.length)⟩
      l.get i :: sampleWORAux fuel (l.eraseIdx i.val) (fun m => picks (m + 1))

/-- The list returned by `np.random.choice(items, size=len(items), replace=False, p=·)`
on a given run of random draws. -/
def sampleWOR {α : Type} (items : List α) (picks : ℕ → ℕ) : List α :=
  sampleWORAux items.length items picks

/-- Model of `elitist_shuffle(items, inequality)` (lines 68-88), with the random
draws made explicit as `picks`. The weight pipeline is `normWeight`; its entries
are strictly positive and sum to `1` in exact arithmetic whenever `items` is
nonempty (proved below), so the only input `np.random.choice` rejects is the empty
population: legacy NumPy raises `ValueError` for an empty `a` (and for `n = 0`
the probability vector is empty, so its sum `0` also fails the sum-to-one check).
The returned arrangement on a successful call is `sampleWOR items picks`. -/
def elitist_shuffle {α : Type} (items : List α) (inequality : ℝ) (picks : ℕ → ℕ) :
    Except String (List α) :=
  if items.length = 0 then
    Except.error "ValueError: a must be non-empty"
  else
    Except.ok (sampleWOR items picks)

/-! ### Distribution-level semantics of the weighted draw -/

/-- Probability that sequential weighted sampling without replacement from `pool`,
with fixed per-element weights `w` renormalized over the remaining pool before each
draw, produces exactly the list `out`. -/
noncomputable def drawProb (w : ℕ → ℝ) : List ℕ → List ℕ → ℝ
  | pool, [] => if pool = [] then 1 else 0
  | pool, i :: rest =>
      if i ∈ pool then
        (w i / (pool.map w).sum) * drawProb w (pool.erase i) rest
      else 0

/-! ### Aggregator `shuffle_simulations` (lines 11-32) -/

/-- Model of `defaultdict(Counter)`: a total map from initial position to a total
map from final position to accumulated frequency, every entry defaulting to `0`.
Looking up any key is total, as in a `defaultdict`. -/
def Landing : Type := ℕ → ℕ → ℚ

/-- The fresh `defaultdict(Counter)` of line 25: every entry is `0` and every
lookup returns the empty counter. -/
def emptyLanding : Landing := fun _ _ => 0

/-- The update `landing_counts[item][pos] += c` of line 31. -/
def bump (d : Landing) (item pos : ℕ) (c : ℚ) : Landing :=
  fun i p => if i = item ∧ p = pos then d i p + c else d i p

/-- The lookup `s_items.index(item)`: index of the first occurrence, `none` when
the item is absent (Python raises `ValueError` in that case). -/
def posOf : List ℕ → ℕ → Option ℕ
  | [], _ => none
  | a :: l, x => if a = x then some 0 else Option.map (fun p => p + 1) (posOf l x)

/-- The arrangement `shuffle_func(items) or items` of line 29: the value returned
by the shuffle when it is truthy (a nonempty list), otherwise the `items` list.
An in-place shuffler returning `None` is modelled as `none` together with the
unmutated identity list, since the claims below quantify over the resulting
arrangement via the shuffle argument itself. -/
def effectiveItems (res : Option (List ℕ)) (items : List ℕ) : List ℕ :=
  match res with
  | none => items
  | some l => if l = [] then items else l

/-- The body of the inner loop of line 30-31:
`landing_counts[item][s_items.index(item)] += freq_factor`, where a missing item
makes `s_items.index(item)` raise `ValueError`. -/
def innerStep (s_items : List ℕ) (c : ℚ) (d : Landing) (item : ℕ) : Except String Landing :=
  match posOf s_items item with
  | none => Except.error "ValueError: item is not in list"
  | some pos => Except.ok (bump d item pos c)

/-- The arrangement aggregated by one trial: `shuffle_func(items) or items` with
`items = list(range(n_items))`. -/
def trialItems (sf : List ℕ → Option (List ℕ)) (n_items : ℕ) : List ℕ :=
  effectiveItems (sf (List.range n_items)) (List.range n_items)

/-- One trial of the loop body (lines 28-31): build `items = list(range(n_items))`,
apply the shuffle, and for each `item in range(n_items)` add `c` to
`landing_counts[item][s_items.index(item)]`. -/
def trialStep (sf : List ℕ → Option (List ℕ)) (n_items : ℕ) (c : ℚ) (d : Landing) :
    Except String Landing :=
  (List.range n_items).foldlM (innerStep (trialItems sf n_items) c) d

/-- Model of `shuffle_simulations(shuffle_func, n_items, n_simulations)`
(lines 11-32). The shuffle argument takes the trial number first, modelling a
Python callable whose behaviour may differ between calls (hidden randomness or
state). `n_simulations` is an integer as in Python: `1 / n_simulations` raises
`ZeroDivisionError` when it is `0`, and `range(n_simulations)` is empty when it
is negative. -/
def shuffle_simulations (shuffle : ℕ → List ℕ → Option (List ℕ)) (n_items : ℕ)
    (n_simulations : ℤ) : Except String Landing :=
  if n_simulations = 0 then
    Except.error "ZeroDivisionError: division by zero"
  else
    let freq_factor : ℚ := 1 / (n_simulations : ℚ)
    (List.range n_simulations.toNat).foldlM
      (fun d t => trialStep (shuffle t) n_items freq_factor d)
      emptyLanding

/-! ### Helper lemmas on `posOf` -/

theorem posOf_isSome_iff (l : List ℕ) (x : ℕ) : (posOf l x).isSome = true ↔ x ∈ l := by
  induction l with
  | nil => simp [posOf]
  | cons a l ih =>
      by_cases hax : a = x
      · subst hax
        simp [posOf]
      · have hmem : (x ∈ a :: l) ↔ (x ∈ l) := by
          constructor
          · intro h
            rcases List.mem_cons.mp h with h2 | h2
            · exact absurd h2.symm hax
            · exact h2
          · exact fun h => List.mem_cons.mpr (Or.inr h)
        rw [hmem, ← ih]
        cases hpos : posOf l x <;> simp [posOf, if_neg hax, hpos]

theorem posOf_lt_length : ∀ (l : List ℕ) (x p : ℕ), posOf l x = some p → p < l.length := by
  intro l
  induction l with
  | nil => intro x p h; simp [posOf] at h
  | cons a l ih =>
      intro x p h
      by_cases hax : a = x
      · simp only [posOf, if_pos hax] at h
        have : p = 0 := (Option.some_inj.mp h).symm
        subst this
        exact Nat.succ_pos _
      · simp only [posOf, if_neg hax] at h
        cases hq : posOf l x with
        | none => rw [hq] at h; simp at h
        | some q =>
            rw [hq] at h
            simp only [Option.map_some'] at h
            have hp : p = q + 1 := (Option.some_inj.mp h).symm
            have := ih x q hq
            simp only [List.length_cons, hp]
            omega

/-! ### `sampleWOR` returns a permutation of its input, whatever the draws -/

theorem get_cons_eraseIdx_perm {α : Type} :
    ∀ (l : List α) (i : Fin l.length), (l.get i :: l.eraseIdx i.val).Perm l := by
  intro l
  induction l with
  | nil => intro i; exact absurd i.isLt (by simp)
  | cons a l ih =>
      intro i
      match i with
      | ⟨0, _⟩ => exact List.Perm.refl _
      | ⟨j + 1, hj⟩ =>
          have hj2 : j < l.length := Nat.lt_of_succ_lt_succ (by simpa using hj)
          have step : (l.get ⟨j, hj2⟩ :: l.eraseIdx j).Perm l := ih ⟨j, hj2⟩
          have h1 : (a :: l).get ⟨j + 1, hj⟩ = l.get ⟨j, hj2⟩ := rfl
          have h2 : (a :: l).eraseIdx (j + 1) = a :: l.eraseIdx j := rfl
          rw [show ((⟨j + 1, hj⟩ : Fin (a :: l).length)).val = j + 1 from rfl, h1, h2]
          exact List.Perm.trans (List.Perm.swap a _ _) (List.Perm.cons a step)

theorem sampleWORAux_perm {α : Type} :
    ∀ (fuel : ℕ) (l : List α) (picks : ℕ → ℕ), l.length ≤ fuel →
      (sampleWORAux fuel l picks).Perm l := by
  intro fuel
  induction fuel with
  | zero =>
      intro l picks h
      have hnil : l = [] := List.eq_nil_of_length_eq_zero (Nat.le_zero.mp h)
      subst hnil
      exact List.Perm.refl _
  | succ fuel ih =>
      intro l picks h
      match l with
      | [] => exact List.Perm.refl _
      | a :: as =>
          have hpos : 0 < (a :: as).length := Nat.succ_pos _
          have hperm := get_cons_eraseIdx_perm (a :: as)
            ⟨picks 0 % (a :: as).length, Nat.mod_lt _ hpos⟩
          have hlen : ((a :: as).eraseIdx (picks 0 % (a :: as).length)).length ≤ fuel := by
            have hl := hperm.length_eq
            simp only [List.length_cons] at hl h ⊢
            omega
          have htail := ih ((a :: as).eraseIdx (picks 0 % (a :: as).length))
            (fun m => picks (m + 1)) hlen
          exact List.Perm.trans (List.Perm.cons _ htail) hperm

theorem sampleWOR_perm {α : Type} (items : List α) (picks : ℕ → ℕ) :
    (sampleWOR items picks).Perm items :=
  sampleWORAux_perm items.length items picks (Nat.le_refl _)

/-! ### Generic lemmas about `foldlM` in the `Except` monad -/

theorem except_bind_ok {α β : Type} (x : α) (g : α → Except String β) :
    (Except.ok x >>= g) = g x := rfl

theorem except_bind_error {α β : Type} (e : String) (g : α → Except String β) :
    ((Except.error e : Except String α) >>= g) = Except.error e := rfl

theorem foldlM_except_ok_preserve {α β : Type} (f : β → α → Except String β) (P : β → Prop) :
    ∀ (l : List α) (b b2 : β), P b →
      (∀ x ∈ l, ∀ y y2, P y → f y x = Except.ok y2 → P y2) →
      l.foldlM f b = Except.ok b2 → P b2 := by
  intro l
  induction l with
  | nil =>
      intro b b2 hP _ h
      rw [List.foldlM_nil] at h
      exact (Except.ok.inj h) ▸ hP
  | cons a l ih =>
      intro b b2 hP hstep h
      rw [List.foldlM_cons] at h
      cases hfa : f b a with
      | error e => rw [hfa, except_bind_error] at h; cases h
      | ok b1 =>
          rw [hfa, except_bind_ok] at h
          have hb1 : P b1 := hstep a (List.mem_cons_self a l) b b1 hP hfa
          exact ih b1 b2 hb1 (fun x hx => hstep x (List.mem_cons_of_mem a hx)) h

/-! ### Exact effect of the inner loop of `shuffle_simulations` -/

theorem innerFold_ok (s : List ℕ) (c : ℚ) :
    ∀ (L : List ℕ), L.Nodup → (∀ i ∈ L, i ∈ s) → ∀ d : Landing,
      ∃ d2, L.foldlM (innerStep s c) d = Except.ok d2 ∧
        ∀ i p, d2 i p = d i p + (if i ∈ L ∧ posOf s i = some p then c else 0) := by
  intro L
  induction L with
  | nil =>
      intro _ _ d
      refine ⟨d, by rw [List.foldlM_nil]; rfl, ?_⟩
      intro i p
      simp
  | cons a L ih =>
      intro hnd hmem d
      have hnd2 := List.nodup_cons.mp hnd
      have ha : a ∈ s := hmem a (List.mem_cons_self a L)
      obtain ⟨pa, hpa⟩ := Option.isSome_iff_exists.mp ((posOf_isSome_iff s a).mpr ha)
      have hstep : innerStep s c d a = Except.ok (bump d a pa c) := by
        simp [innerStep, hpa]
      obtain ⟨d2, hfold, hform⟩ :=
        ih hnd2.2 (fun i hi => hmem i (List.mem_cons_of_mem a hi)) (bump d a pa c)
      refine ⟨d2, ?_, ?_⟩
      · rw [List.foldlM_cons, hstep, except_bind_ok, hfold]
      · intro i p
        rw [hform i p]
        by_cases hia : i = a
        · subst hia
          by_cases hp : p = pa
          · subst hp
            simp [bump, hpa, hnd2.1]
          · simp [bump, hpa, hp, hnd2.1, Ne.symm hp]
        · simp [bump, hia, List.mem_cons]

theorem innerFold_err (s : List ℕ) (c : ℚ) :
    ∀ (L : List ℕ) (d : Landing), (∃ i ∈ L, i ∉ s) →
      ∃ e, L.foldlM (innerStep s c) d = Except.error e := by
  intro L
  induction L with
  | nil =>
      intro d h
      rcases h with ⟨i, hi, _⟩
      exact absurd hi (List.not_mem_nil i)
  | cons a L ih =>
      intro d h
      by_cases has : a ∈ s
      · obtain ⟨pa, hpa⟩ := Option.isSome_iff_exists.mp ((posOf_isSome_iff s a).mpr has)
        have hstep : innerStep s c d a = Except.ok (bump d a pa c) := by
          simp [innerStep, hpa]
        rcases h with ⟨i, hiL, his⟩
        have hiL2 : i ∈ L := by
          rcases List.mem_cons.mp hiL with h2 | h2
          · rw [h2] at his; exact absurd has his
          · exact h2
        obtain ⟨e, he⟩ := ih (bump d a pa c) ⟨i, hiL2, his⟩
        exact ⟨e, by rw [List.foldlM_cons, hstep, except_bind_ok, he]⟩
      · have hnone : posOf s a = none := by
          cases hq : posOf s a with
          | none => rfl
          | some q =>
              exact absurd ((posOf_isSome_iff s a).mp (by simp [hq])) has
        refine ⟨"ValueError: item is not in list", ?_⟩
        have hstep : innerStep s c d a =
            Except.error "ValueError: item is not in list" := by
          simp [innerStep, hnone]
        rw [List.foldlM_cons, hstep, except_bind_error]

/-! ### Exact effect of one trial and of the whole simulation loop -/

theorem trialStep_ok_of_found (sf : List ℕ → Option (List ℕ)) (n : ℕ) (c : ℚ) (d : Landing)
    (h : ∀ i, i < n → i ∈ trialItems sf n) :
    ∃ d2, trialStep sf n c d = Except.ok d2 ∧
      ∀ i p, d2 i p = d i p +
        (if i < n ∧ posOf (trialItems sf n) i = some p then c else 0) := by
  obtain ⟨d2, hfold, hform⟩ := innerFold_ok (trialItems sf n) c (List.range n)
    (List.nodup_range n) (fun i hi => h i (List.mem_range.mp hi)) d
  refine ⟨d2, hfold, ?_⟩
  intro i p
  rw [hform i p]
  by_cases hin : i < n <;> simp [List.mem_range, hin]

theorem trialStep_err_of_missing (sf : List ℕ → Option (List ℕ)) (n : ℕ) (c : ℚ) (d : Landing)
    (h : ∃ i, i < n ∧ i ∉ trialItems sf n) :
    ∃ e, trialStep sf n c d = Except.error e := by
  rcases h with ⟨i, hin, hnot⟩
  exact innerFold_err (trialItems sf n) c (List.range n) d
    ⟨i, List.mem_range.mpr hin, hnot⟩

theorem trialStep_preserve_high (sf : List ℕ → Option (List ℕ)) (n : ℕ) (c : ℚ)
    (d d2 : Landing) (h : trialStep sf n c d = Except.ok d2) (k : ℕ) (hk : n ≤ k) (p : ℕ) :
    d2 k p = d k p := by
  have := foldlM_except_ok_preserve (innerStep (trialItems sf n) c)
    (fun y => ∀ q, y k q = d k q) (List.range n) d d2 (fun _ => rfl) ?_ h
  · exact this p
  · intro x hx y y2 hy hstep
    have hxn : x < n := List.mem_range.mp hx
    have hxk : k ≠ x := by omega
    cases hq : posOf (trialItems sf n) x with
    | none => rw [innerStep, hq] at hstep; cases hstep
    | some pos =>
        rw [innerStep, hq] at hstep
        have : y2 = bump y x pos c := (Except.ok.inj hstep).symm
        subst this
        intro q
        simp [bump, hxk]
        exact hy q

theorem outerFold_ok (shuffle : ℕ → List ℕ → Option (List ℕ)) (n : ℕ) (c : ℚ) :
    ∀ (T : List ℕ), (∀ t ∈ T, ∀ i, i < n → i ∈ trialItems (shuffle t) n) → ∀ d : Landing,
      ∃ d2, T.foldlM (fun d t => trialStep (shuffle t) n c d) d = Except.ok d2 ∧
        ∀ i p, d2 i p = d i p +
          (if i < n then
            c * (T.countP (fun t => decide (posOf (trialItems (shuffle t) n) i = some p)) : ℚ)
          else 0) := by
  intro T
  induction T with
  | nil =>
      intro _ d
      refine ⟨d, by rw [List.foldlM_nil]; rfl, ?_⟩
      intro i p
      by_cases hin : i < n <;> simp [hin]
  | cons t T ih =>
      intro hfound d
      obtain ⟨d1, hstep, hform1⟩ := trialStep_ok_of_found (shuffle t) n c d
        (hfound t (List.mem_cons_self t T))
      obtain ⟨d2, hfold, hform2⟩ := ih (fun u hu => hfound u (List.mem_cons_of_mem t hu)) d1
      refine ⟨d2, ?_, ?_⟩
      · rw [List.foldlM_cons, hstep, except_bind_ok, hfold]
      · intro i p
        rw [hform2 i p, hform1 i p]
        by_cases hin : i < n
        · by_cases hpos : posOf (trialItems (shuffle t) n) i = some p
          · simp only [List.countP_cons, hin, hpos, and_self, if_true, decide_true_eq_true]
            push_cast
            ring
          · simp only [List.countP_cons, hin, hpos, and_false, if_true, if_false,
              decide_eq_true_eq, true_and]
            push_cast
            ring
        · simp [hin]

/-! ### Properties of the weight pipeline -/

theorem baseScore_pos (n i : ℕ) (hi : i < n) : 0 < baseScore n i := by
  have hn : (0 : ℝ) < n := by
    have : 0 < n := Nat.lt_of_le_of_lt (Nat.zero_le i) hi
    exact_mod_cast this
  have hdiv : (i : ℝ) / n < 1 := (div_lt_one hn).mpr (by exact_mod_cast hi)
  have : (0 : ℝ) < 1 - (i : ℝ) / n := by linarith
  simpa [baseScore] using this

theorem baseScore_le_one (n i : ℕ) : baseScore n i ≤ 1 := by
  have : (0 : ℝ) ≤ (i : ℝ) / n := div_nonneg (Nat.cast_nonneg i) (Nat.cast_nonneg n)
  simp only [baseScore]
  linarith

theorem baseScore_strictAnti (n i j : ℕ) (hij : i < j) (hj : j < n) :
    baseScore n j < baseScore n i := by
  have hn : (0 : ℝ) < n := by
    have : 0 < n := Nat.lt_of_le_of_lt (Nat.zero_le j) hj
    exact_mod_cast this
  have : (i : ℝ) / n < (j : ℝ) / n :=
    (div_lt_div_iff_of_pos_right hn).mpr (by exact_mod_cast hij)
  simp only [baseScore]
  linarith

theorem rawWeight_pos (n : ℕ) (q : ℝ) (i : ℕ) (hi : i < n) : 0 < rawWeight n q i :=
  Real.rpow_pos_of_pos (baseScore_pos n i hi) q

theorem l1Norm_eq_sum (n : ℕ) (q : ℝ) :
    l1Norm n q = ∑ i ∈ Finset.range n, rawWeight n q i := by
  refine Finset.sum_congr rfl ?_
  intro i hi
  exact abs_of_pos (rawWeight_pos n q i (Finset.mem_range.mp hi))

theorem l1Norm_pos (n : ℕ) (q : ℝ) (hn : 1 ≤ n) : 0 < l1Norm n q := by
  rw [l1Norm_eq_sum]
  apply Finset.sum_pos
  · intro i hi
    exact rawWeight_pos n q i (Finset.mem_range.mp hi)
  · exact Finset.nonempty_range_iff.mpr (by omega)

theorem normWeight_pos (n : ℕ) (q : ℝ) (i : ℕ) (hn : 1 ≤ n) (hi : i < n) :
    0 < normWeight n q i :=
  div_pos (rawWeight_pos n q i hi) (l1Norm_pos n q hn)

theorem sum_normWeight (n : ℕ) (q : ℝ) (hn : 1 ≤ n) :
    ∑ i ∈ Finset.range n, normWeight n q i = 1 := by
  have hL : l1Norm n q ≠ 0 := (l1Norm_pos n q hn).ne'
  simp only [normWeight]
  rw [← Finset.sum_div, ← l1Norm_eq_sum, div_self hL]

theorem normWeight_exponent_zero (n : ℕ) (i : ℕ) :
    normWeight n 0 i = 1 / n := by
  have hraw : ∀ j : ℕ, rawWeight n 0 j = 1 := by
    intro j
    simp [rawWeight, Real.rpow_zero]
  have hL : l1Norm n 0 = n := by
    simp [l1Norm, hraw]
  simp [normWeight, hraw, hL]

/-! ### Uniform weights make every complete draw order equally likely -/

theorem sum_map_const_weight {w : ℕ → ℝ} {cw : ℝ} :
    ∀ {l : List ℕ}, (∀ x ∈ l, w x = cw) → (l.map w).sum = l.length * cw := by
  intro l
  induction l with
  | nil => intro _; simp
  | cons a l ih =>
      intro h
      have ha := h a (List.mem_cons_self a l)
      have hl := ih (fun x hx => h x (List.mem_cons_of_mem a hx))
      simp only [List.map_cons, List.sum_cons, hl, ha, List.length_cons]
      push_cast
      ring

theorem drawProb_uniform (cw : ℝ) (hcw : 0 < cw) :
    ∀ (out pool : List ℕ) (w : ℕ → ℝ), pool.Nodup → (∀ x ∈ pool, w x = cw) →
      out.Perm pool → drawProb w pool out = 1 / (Nat.factorial pool.length) := by
  intro out
  induction out with
  | nil =>
      intro pool w _ _ hperm
      have hp : pool = [] := hperm.symm.eq_nil
      subst hp
      simp [drawProb, Nat.factorial]
  | cons i rest ih =>
      intro pool w hnd hw hperm
      have hipool : i ∈ pool := hperm.subset (List.mem_cons_self i rest)
      have hrest : rest.Perm (pool.erase i) :=
        (hperm.trans (List.perm_cons_erase hipool)).cons_inv
      have hm := List.length_erase_add_one hipool
      have hrec := ih (pool.erase i) w (hnd.erase i)
        (fun x hx => hw x (List.erase_subset i pool hx)) hrest
      have hunfold : drawProb w pool (i :: rest) =
          (w i / (pool.map w).sum) * drawProb w (pool.erase i) rest := by
        simp [drawProb, hipool]
      rw [hunfold, hrec, hw i hipool, sum_map_const_weight hw, ← hm]
      have hfact : (Nat.factorial (pool.erase i).length : ℝ) ≠ 0 := by
        exact_mod_cast (Nat.factorial_pos (pool.erase i).length).ne'
      have hlen : ((pool.erase i).length : ℝ) + 1 ≠ 0 := by positivity
      rw [Nat.factorial_succ]
      push_cast
      field_simp
      ring

/-! ### Each trial contributes exactly one final position per item -/

theorem sum_countP_eq_length (n : ℕ) (pos : ℕ → Option ℕ) :
    ∀ T : List ℕ, (∀ t ∈ T, ∃ p, pos t = some p ∧ p < n) →
      ∑ p ∈ Finset.range n, T.countP (fun t => decide (pos t = some p)) = T.length := by
  intro T
  induction T with
  | nil => intro _; simp
  | cons t T ih =>
      intro h
      obtain ⟨pt, hpt, hptn⟩ := h t (List.mem_cons_self t T)
      have hT := ih (fun u hu => h u (List.mem_cons_of_mem t hu))
      simp only [List.countP_cons]
      rw [Finset.sum_add_distrib, hT]
      have hone : ∀ p, (if (decide (pos t = some p)) = true then 1 else 0) =
          (if p = pt then 1 else 0) := by
        intro p
        by_cases hp : p = pt
        · subst hp; simp [hpt]
        · have : pos t ≠ some p := by
            rw [hpt]
            intro hcontra
            exact hp (Option.some_inj.mp hcontra).symm
          simp [this, hp]
      calc T.length + ∑ p ∈ Finset.range n, (if (decide (pos t = some p)) = true then 1 else 0)
      _ = T.length + ∑ p ∈ Finset.range n, (if p = pt then 1 else 0) := by
          rw [Finset.sum_congr rfl (fun p _ => hone p)]
      _ = T.length + 1 := by
          rw [Finset.sum_ite_eq' (Finset.range n) pt (fun _ => 1),
            if_pos (Finset.mem_range.mpr hptn)]
      _ = (t :: T).length := by simp

/-! ### Claim theorems -/

/-- Claim C1: for every input length `n ≥ 1` and inequality `≥ 0`, `elitist_shuffle`
builds its sampling weights from the base scores `b_i = 1 - i/n` — strictly
decreasing and in `(0, 1]` — raised to the inequality exponent and L1-normalized,
so the weight vector is strictly positive and sums to `1` before sampling. -/
theorem claim_C1 (n : ℕ) (inequality : ℝ) (hn : 1 ≤ n) (hq : 0 ≤ inequality) :
    (∀ i j, i < j → j < n → baseScore n j < baseScore n i) ∧
    (∀ i, i < n → 0 < baseScore n i ∧ baseScore n i ≤ 1) ∧
    (∀ i, rawWeight n inequality i = Real.rpow (baseScore n i) inequality) ∧
    (∀ i, i < n → 0 < normWeight n inequality i) ∧
    (∑ i ∈ Finset.range n, normWeight n inequality i = 1) := by
  refine ⟨?_, ?_, ?_, ?_, ?_⟩
  · exact fun i j hij hj => baseScore_strictAnti n i j hij hj
  · exact fun i hi => ⟨baseScore_pos n i hi, baseScore_le_one n i⟩
  · exact fun i => rfl
  · exact fun i hi => normWeight_pos n inequality i hn hi
  · exact sum_normWeight n inequality hn

/-- Witness for C1 at `n = 3`, `inequality = 2`. -/
theorem claim_C1_witness :
    (1 ≤ 3 ∧ (0 : ℝ) ≤ 2) ∧
    ((∀ i j, i < j → j < 3 → baseScore 3 j < baseScore 3 i) ∧
     (∀ i, i < 3 → 0 < baseScore 3 i ∧ baseScore 3 i ≤ 1) ∧
     (∀ i, rawWeight 3 2 i = Real.rpow (baseScore 3 i) 2) ∧
     (∀ i, i < 3 → 0 < normWeight 3 2 i) ∧
     (∑ i ∈ Finset.range 3, normWeight 3 2 i = 1)) :=
  ⟨⟨by norm_num, by norm_num⟩, claim_C1 3 2 (by norm_num) (by norm_num)⟩

/-- Claim C2: on every call, whatever the random draws, the sequence returned by
`elitist_shuffle` on distinct items is a permutation of the input: a nonempty
input always yields a result, and any result has the input's length, is a
permutation of the input, and contains each original item exactly once. -/
theorem claim_C2 {α : Type} [DecidableEq α] (items : List α) (inequality : ℝ)
    (picks : ℕ → ℕ) (hd : items.Nodup) :
    (items ≠ [] → ∃ out, elitist_shuffle items inequality picks = Except.ok out) ∧
    (∀ out, elitist_shuffle items inequality picks = Except.ok out →
      out.length = items.length ∧ out.Perm items ∧ ∀ x ∈ items, out.count x = 1) := by
  constructor
  · intro hne
    have h0 : ¬ items.length = 0 := fun h => hne (List.eq_nil_of_length_eq_zero h)
    exact ⟨sampleWOR items picks, by simp [elitist_shuffle, h0]⟩
  · intro out hout
    by_cases h0 : items.length = 0
    · simp [elitist_shuffle, h0] at hout
    · simp only [elitist_shuffle, if_neg h0] at hout
      have hperm : out.Perm items := (Except.ok.inj hout) ▸ sampleWOR_perm items picks
      refine ⟨hperm.length_eq, hperm, ?_⟩
      intro x hx
      rw [hperm.count_eq]
      exact List.count_eq_one_of_mem hd hx

/-- Witness for C2 at `items = [10, 20, 30]`, `inequality = 2`, constant draws. -/
theorem claim_C2_witness :
    ([10, 20, 30] : List ℕ).Nodup ∧
    ((([10, 20, 30] : List ℕ) ≠ [] →
        ∃ out, elitist_shuffle [10, 20, 30] 2 (fun _ => 1) = Except.ok out) ∧
     (∀ out, elitist_shuffle [10, 20, 30] 2 (fun _ => 1) = Except.ok out →
        out.length = ([10, 20, 30] : List ℕ).length ∧ out.Perm [10, 20, 30] ∧
          ∀ x ∈ ([10, 20, 30] : List ℕ), out.count x = 1)) :=
  ⟨by decide, claim_C2 [10, 20, 30] 2 (fun _ => 1) (by decide)⟩

/-- Counterexample to C4 as stated: at `inequality = -1` with two items,
`elitist_shuffle` raises nothing — the base scores are strictly positive, so the
negative exponent still yields finite positive weights `1/3` and `2/3` summing to
`1`, and a valid permutation is returned. -/
theorem claim_C4_counterexample :
    normWeight 2 (-1) 0 = 1 / 3 ∧ normWeight 2 (-1) 1 = 2 / 3 ∧
    (∑ i ∈ Finset.range 2, normWeight 2 (-1) i = 1) ∧
    elitist_shuffle [10, 20] (-1) (fun _ => 1) = Except.ok [20, 10] := by
  have hb0 : baseScore 2 0 = 1 := by norm_num [baseScore]
  have hb1 : baseScore 2 1 = 1 / 2 := by norm_num [baseScore]
  have hr0 : rawWeight 2 (-1) 0 = 1 := by
    rw [rawWeight, hb0]
    simpa using Real.one_rpow (-1)
  have hr1 : rawWeight 2 (-1) 1 = 2 := by
    rw [rawWeight, hb1]
    have : Real.rpow (1 / 2) (-1) = ((1 : ℝ) / 2)⁻¹ := Real.rpow_neg_one (1 / 2)
    rw [this]
    norm_num
  have hL : l1Norm 2 (-1) = 3 := by
    simp only [l1Norm, Finset.sum_range_succ, Finset.sum_range_zero, hr0, hr1]
    norm_num
  refine ⟨?_, ?_, ?_, rfl⟩
  · rw [normWeight, hr0, hL]
  · rw [normWeight, hr1, hL]
  · simp only [Finset.sum_range_succ, Finset.sum_range_zero, normWeight, hr0, hr1, hL]
    norm_num

/-- Claim C4 amended: the source performs no validation of `inequality`; for every
`inequality < 0` and nonempty input, the weights are still finite, strictly
positive and L1-normalize to sum `1` (every base score is strictly positive), and
`elitist_shuffle` returns a valid permutation instead of failing. -/
theorem claim_C4_amended (n : ℕ) (inequality : ℝ) (hn : 1 ≤ n) (hq : inequality < 0) :
    (∀ i, i < n → 0 < normWeight n inequality i) ∧
    (∑ i ∈ Finset.range n, normWeight n inequality i = 1) ∧
    (∀ (items : List ℕ) (picks : ℕ → ℕ), items.length = n →
      ∃ out, elitist_shuffle items inequality picks = Except.ok out ∧ out.Perm items) := by
  refine ⟨fun i hi => normWeight_pos n inequality i hn hi, sum_normWeight n inequality hn, ?_⟩
  intro items picks hlen
  have h0 : ¬ items.length = 0 := by omega
  exact ⟨sampleWOR items picks, by simp [elitist_shuffle, h0], sampleWOR_perm items picks⟩

/-- Witness for the amended C4 at `n = 2`, `inequality = -1`. -/
theorem claim_C4_witness :
    (1 ≤ 2 ∧ (-1 : ℝ) < 0) ∧
    ((∀ i, i < 2 → 0 < normWeight 2 (-1) i) ∧
     (∑ i ∈ Finset.range 2, normWeight 2 (-1) i = 1) ∧
     (∀ (items : List ℕ) (picks : ℕ → ℕ), items.length = 2 →
       ∃ out, elitist_shuffle items (-1) picks = Except.ok out ∧ out.Perm items)) :=
  ⟨⟨by norm_num, by norm_num⟩, claim_C4_amended 2 (-1) (by norm_num) (by norm_num)⟩

/-- Counterexample to C5 as stated: a negative simulation count does not fail with
any error — `range(n_simulations)` is empty, so the empty distribution is
silently returned. -/
theorem claim_C5_counterexample :
    shuffle_simulations (fun _ _ => none) 3 (-5) = Except.ok emptyLanding := rfl

/-- Claim C5 amended: the simulation count is not validated. `n_simulations = 0`
fails with `ZeroDivisionError` when `freq_factor = 1 / n_simulations` is computed
(before any trial), and `n_simulations < 0` does not fail at all: no trial runs
and the empty distribution is returned. -/
theorem claim_C5_amended (shuffle : ℕ → List ℕ → Option (List ℕ)) (n_items : ℕ) :
    (shuffle_simulations shuffle n_items 0 =
      Except.error "ZeroDivisionError: division by zero") ∧
    (∀ s : ℤ, s < 0 → shuffle_simulations shuffle n_items s = Except.ok emptyLanding) := by
  constructor
  · rfl
  · intro s hs
    have h0 : ¬ s = 0 := by omega
    have ht : s.toNat = 0 := Int.toNat_of_nonpos (le_of_lt hs)
    simp only [shuffle_simulations, if_neg h0, ht, List.range_zero, List.foldlM_nil]
    rfl

/-- Witness for the amended C5 at `n_items = 3`, counts `0` and `-5`. -/
theorem claim_C5_witness :
    (shuffle_simulations (fun _ _ => none) 3 0 =
      Except.error "ZeroDivisionError: division by zero") ∧
    ((-5 : ℤ) < 0 ∧
      shuffle_simulations (fun _ _ => none) 3 (-5) = Except.ok emptyLanding) :=
  ⟨(claim_C5_amended (fun _ _ => none) 3).1, by decide,
    (claim_C5_amended (fun _ _ => none) 3).2 (-5) (by decide)⟩

/-- Claim C7: with `inequality = 0` all `n` sampling weights are equal (`1/n`
after normalization), and the weighted draw without replacement then gives every
one of the `n!` complete draw orders — hence every permutation of the input —
the same probability `1/n!`. -/
theorem claim_C7 (n : ℕ) (hn : 1 ≤ n) :
    (∀ i, i < n → normWeight n 0 i = 1 / n) ∧
    (∀ out : List ℕ, out.Perm (List.range n) →
      drawProb (fun i => normWeight n 0 i) (List.range n) out =
        1 / (Nat.factorial n)) := by
  constructor
  · exact fun i _ => normWeight_exponent_zero n i
  · intro out hperm
    have hcw : (0 : ℝ) < 1 / n := by
      have : (0 : ℝ) < n := by exact_mod_cast hn
      positivity
    have := drawProb_uniform (1 / (n : ℝ)) hcw out (List.range n)
      (fun i => normWeight n 0 i) (List.nodup_range n)
      (fun x _ => normWeight_exponent_zero n x) hperm
    simpa [List.length_range] using this

/-- Witness for C7 at `n = 3`. -/
theorem claim_C7_witness :
    1 ≤ 3 ∧
    ((∀ i, i < 3 → normWeight 3 0 i = 1 / 3) ∧
     (∀ out : List ℕ, out.Perm (List.range 3) →
       drawProb (fun i => normWeight 3 0 i) (List.range 3) out =
         1 / (Nat.factorial 3))) := by
  refine ⟨by norm_num, ?_⟩
  have := claim_C7 3 (by norm_num)
  simpa using this

/-- Counterexample to C9 as stated: on the empty input, `elitist_shuffle` does not
return the empty sequence — `np.random.choice` rejects an empty population
(for `n = 0` the probability vector is empty and sums to `0`, not `1`), so the
call raises `ValueError`. -/
theorem claim_C9_counterexample :
    elitist_shuffle ([] : List ℕ) 0 (fun _ => 0) =
      Except.error "ValueError: a must be non-empty" := rfl

/-- Claim C9 amended: for the empty input sequence and every inequality,
`elitist_shuffle` raises `ValueError` from `np.random.choice` instead of
returning the empty sequence. -/
theorem claim_C9_amended {α : Type} (inequality : ℝ) (picks : ℕ → ℕ) :
    elitist_shuffle ([] : List α) inequality picks =
      Except.error "ValueError: a must be non-empty" := rfl

/-- Counterexample to C3 as stated: the shuffle returns `[0, 1, 2, 0]` on every
trial with `n_items = 3` — a broken bijection (length 4, duplicated `0`) — yet
`shuffle_simulations` succeeds, silently absorbing it into the statistics instead
of failing with `ShapeMismatch`. -/
theorem claim_C3_counterexample :
    ¬ (([0, 1, 2, 0] : List ℕ).Perm (List.range 3)) ∧
    (shuffle_simulations (fun _ _ => some [0, 1, 2, 0]) 3 2).isOk = true :=
  ⟨by decide, by decide⟩

/-- Claim C3 amended: `shuffle_simulations` performs no bijection check. If every
index `0..n_items-1` occurs in each trial's arrangement, aggregation succeeds even
when the arrangement is not a bijection (wrong length, duplicates); only when some
index is missing (here: from the first trial) does the call fail, with the
`ValueError` of `list.index`, not with a `ShapeMismatch` bijection check. -/
theorem claim_C3_amended (shuffle : ℕ → List ℕ → Option (List ℕ)) (n_items : ℕ)
    (n_simulations : ℤ) (hs : 0 < n_simulations) :
    ((∀ t, t < n_simulations.toNat →
        ∀ i, i < n_items → i ∈ trialItems (shuffle t) n_items) →
      (shuffle_simulations shuffle n_items n_simulations).isOk = true) ∧
    ((∃ i, i < n_items ∧ i ∉ trialItems (shuffle 0) n_items) →
      ∃ e, shuffle_simulations shuffle n_items n_simulations = Except.error e) := by
  have h0 : ¬ n_simulations = 0 := by omega
  have hsim : shuffle_simulations shuffle n_items n_simulations =
      (List.range n_simulations.toNat).foldlM
        (fun d t => trialStep (shuffle t) n_items (1 / (n_simulations : ℚ)) d)
        emptyLanding := by
    simp [shuffle_simulations, h0]
  constructor
  · intro hfound
    obtain ⟨d2, hfold, _⟩ := outerFold_ok shuffle n_items (1 / (n_simulations : ℚ))
      (List.range n_simulations.toNat)
      (fun t ht i hi => hfound t (List.mem_range.mp ht) i hi) emptyLanding
    rw [hsim, hfold]
    rfl
  · intro hmiss
    obtain ⟨k, hk⟩ : ∃ k, n_simulations.toNat = k + 1 := by
      have : 0 < n_simulations.toNat := by omega
      exact ⟨n_simulations.toNat - 1, by omega⟩
    obtain ⟨e, he⟩ := trialStep_err_of_missing (shuffle 0) n_items
      (1 / (n_simulations : ℚ)) emptyLanding hmiss
    refine ⟨e, ?_⟩
    rw [hsim, hk, List.range_succ_eq_map, List.foldlM_cons, he, except_bind_error]

/-- Witness for the amended C3: two trials, each returning the broken arrangement
`[0, 1, 2, 0]` that still contains every index below `3`, and the missing-index
branch exercised vacuously. -/
theorem claim_C3_witness :
    (0 : ℤ) < 2 ∧
    (((∀ t, t < (2 : ℤ).toNat →
          ∀ i, i < 3 → i ∈ trialItems ((fun _ _ => some [0, 1, 2, 0]) t) 3) →
        (shuffle_simulations (fun _ _ => some [0, 1, 2, 0]) 3 2).isOk = true) ∧
     ((∃ i, i < 3 ∧ i ∉ trialItems ((fun _ _ => some [0, 1, 2, 0]) 0) 3) →
        ∃ e, shuffle_simulations (fun _ _ => some [0, 1, 2, 0]) 3 2 = Except.error e)) :=
  ⟨by decide, claim_C3_amended (fun _ _ => some [0, 1, 2, 0]) 3 2 (by decide)⟩

/-- Claim C6: when every trial arrangement is a bijection over
`{0, …, n_items-1}`, the simulation succeeds; each entry of the resulting
distribution is the number of observations times exactly `1/n_simulations`, every
entry lies in `[0, 1]`, and for each initial position the final-position entries
sum to exactly `1` once all trials are exhausted. -/
theorem claim_C6 (shuffle : ℕ → List ℕ → Option (List ℕ)) (n_items : ℕ)
    (n_simulations : ℤ) (hn : 1 ≤ n_items) (hs : 0 < n_simulations)
    (hbij : ∀ t, t < n_simulations.toNat →
      (trialItems (shuffle t) n_items).Perm (List.range n_items)) :
    ∃ d, shuffle_simulations shuffle n_items n_simulations = Except.ok d ∧
      (∀ i p, i < n_items →
        d i p = (1 / (n_simulations : ℚ)) *
          ((List.range n_simulations.toNat).countP
            (fun t => decide (posOf (trialItems (shuffle t) n_items) i = some p)) : ℚ)) ∧
      (∀ i p, 0 ≤ d i p ∧ d i p ≤ 1) ∧
      (∀ i, i < n_items → ∑ p ∈ Finset.range n_items, d i p = 1) := by
  have h0 : ¬ n_simulations = 0 := by omega
  have hSZ : ((n_simulations.toNat : ℤ)) = n_simulations :=
    Int.toNat_of_nonneg (le_of_lt hs)
  have hSQ : ((n_simulations.toNat : ℕ) : ℚ) = (n_simulations : ℚ) := by
    exact_mod_cast hSZ
  have hcpos : (0 : ℚ) < (n_simulations : ℚ) := by exact_mod_cast hs
  have hone : (1 / (n_simulations : ℚ)) * ((n_simulations.toNat : ℕ) : ℚ) = 1 := by
    rw [hSQ]
    exact one_div_mul_cancel hcpos.ne'
  have hfound : ∀ t ∈ List.range n_simulations.toNat,
      ∀ i, i < n_items → i ∈ trialItems (shuffle t) n_items := by
    intro t ht i hi
    exact ((hbij t (List.mem_range.mp ht)).mem_iff).mpr (List.mem_range.mpr hi)
  have hpos_some : ∀ t ∈ List.range n_simulations.toNat, ∀ i, i < n_items →
      ∃ p, posOf (trialItems (shuffle t) n_items) i = some p ∧ p < n_items := by
    intro t ht i hi
    have hmem : i ∈ trialItems (shuffle t) n_items := hfound t ht i hi
    obtain ⟨p, hp⟩ := Option.isSome_iff_exists.mp ((posOf_isSome_iff _ i).mpr hmem)
    refine ⟨p, hp, ?_⟩
    have hlt := posOf_lt_length _ i p hp
    have hlen : (trialItems (shuffle t) n_items).length = n_items := by
      rw [(hbij t (List.mem_range.mp ht)).length_eq, List.length_range]
    omega
  obtain ⟨d, hfold, hform⟩ := outerFold_ok shuffle n_items (1 / (n_simulations : ℚ))
    (List.range n_simulations.toNat) hfound emptyLanding
  have hsim : shuffle_simulations shuffle n_items n_simulations = Except.ok d := by
    have heq : shuffle_simulations shuffle n_items n_simulations =
        (List.range n_simulations.toNat).foldlM
          (fun d t => trialStep (shuffle t) n_items (1 / (n_simulations : ℚ)) d)
          emptyLanding := by
      simp [shuffle_simulations, h0]
    rw [heq, hfold]
  have hchar : ∀ i p, i < n_items →
      d i p = (1 / (n_simulations : ℚ)) *
        ((List.range n_simulations.toNat).countP
          (fun t => decide (posOf (trialItems (shuffle t) n_items) i = some p)) : ℚ) := by
    intro i p hi
    rw [hform i p]
    simp [emptyLanding, hi]
  refine ⟨d, hsim, hchar, ?_, ?_⟩
  · intro i p
    by_cases hi : i < n_items
    · rw [hchar i p hi]
      constructor
      · positivity
      · have hcnt : ((List.range n_simulations.toNat).countP
            (fun t => decide (posOf (trialItems (shuffle t) n_items) i = some p)) : ℚ) ≤
            ((n_simulations.toNat : ℕ) : ℚ) := by
          have := List.countP_le_length
            (p := fun t => decide (posOf (trialItems (shuffle t) n_items) i = some p))
            (l := List.range n_simulations.toNat)
          calc ((List.range n_simulations.toNat).countP
              (fun t => decide (posOf (trialItems (shuffle t) n_items) i = some p)) : ℚ)
          _ ≤ ((List.range n_simulations.toNat).length : ℚ) := by exact_mod_cast this
          _ = ((n_simulations.toNat : ℕ) : ℚ) := by rw [List.length_range]
        calc (1 / (n_simulations : ℚ)) *
            ((List.range n_simulations.toNat).countP
              (fun t => decide (posOf (trialItems (shuffle t) n_items) i = some p)) : ℚ)
        _ ≤ (1 / (n_simulations : ℚ)) * ((n_simulations.toNat : ℕ) : ℚ) := by
            apply mul_le_mul_of_nonneg_left hcnt
            positivity
        _ = 1 := hone
    · rw [hform i p]
      simp [emptyLanding, hi]
  · intro i hi
    have hterm : ∀ p ∈ Finset.range n_items,
        d i p = (1 / (n_simulations : ℚ)) *
          ((List.range n_simulations.toNat).countP
            (fun t => decide (posOf (trialItems (shuffle t) n_items) i = some p)) : ℚ) :=
      fun p _ => hchar i p hi
    rw [Finset.sum_congr rfl hterm, ← Finset.mul_sum]
    have hcount := sum_countP_eq_length n_items
      (fun t => posOf (trialItems (shuffle t) n_items) i)
      (List.range n_simulations.toNat)
      (fun t ht => hpos_some t ht i hi)
    rw [List.length_range] at hcount
    have hcast : (∑ p ∈ Finset.range n_items,
        ((List.range n_simulations.toNat).countP
          (fun t => decide (posOf (trialItems (shuffle t) n_items) i = some p)) : ℚ)) =
        ((n_simulations.toNat : ℕ) : ℚ) := by
      rw [← Nat.cast_sum]
      exact_mod_cast congrArg (Nat.cast : ℕ → ℚ) hcount
    rw [hcast, hone]

/-- Witness for C6: two items, two trials, the identity and the transposition. -/
theorem claim_C6_witness :
    (1 ≤ 2 ∧ (0 : ℤ) < 2 ∧
      (∀ t, t < (2 : ℤ).toNat →
        (trialItems ((fun t _ => some (if t = 0 then [0, 1] else [1, 0])) t) 2).Perm
          (List.range 2))) ∧
    (∃ d, shuffle_simulations (fun t _ => some (if t = 0 then [0, 1] else [1, 0])) 2 2 =
        Except.ok d ∧
      (∀ i p, i < 2 →
        d i p = (1 / ((2 : ℤ) : ℚ)) *
          ((List.range (2 : ℤ).toNat).countP
            (fun t => decide (posOf
              (trialItems ((fun t _ => some (if t = 0 then [0, 1] else [1, 0])) t) 2) i =
                some p)) : ℚ)) ∧
      (∀ i p, 0 ≤ d i p ∧ d i p ≤ 1) ∧
      (∀ i, i < 2 → ∑ p ∈ Finset.range 2, d i p = 1)) :=
  ⟨⟨by norm_num, by norm_num, by decide⟩,
    claim_C6 (fun t _ => some (if t = 0 then [0, 1] else [1, 0])) 2 2
      (by norm_num) (by norm_num) (by decide)⟩

/-- Claim C10: the returned structure behaves as a `defaultdict(Counter)` — looking
up any initial position never observed (in particular any position at all when
`n_items = 0`, or any key at or above `n_items`) yields the empty frequency
mapping, every entry `0`, rather than a missing-key error. -/
theorem claim_C10 (shuffle : ℕ → List ℕ → Option (List ℕ)) (n_items : ℕ)
    (n_simulations : ℤ) (d : Landing)
    (hok : shuffle_simulations shuffle n_items n_simulations = Except.ok d) :
    ∀ k, n_items ≤ k → ∀ p, d k p = 0 := by
  intro k hk p
  by_cases h0 : n_simulations = 0
  · simp [shuffle_simulations, h0] at hok
  · have hsim : shuffle_simulations shuffle n_items n_simulations =
        (List.range n_simulations.toNat).foldlM
          (fun d t => trialStep (shuffle t) n_items (1 / (n_simulations : ℚ)) d)
          emptyLanding := by
      simp [shuffle_simulations, h0]
    rw [hsim] at hok
    have hpres := foldlM_except_ok_preserve
      (fun d t => trialStep (shuffle t) n_items (1 / (n_simulations : ℚ)) d)
      (fun y => ∀ q, y k q = 0) (List.range n_simulations.toNat) emptyLanding d
      (fun _ => rfl) ?_ hok
    · exact hpres p
    · intro t _ y y2 hy hstep q
      rw [trialStep_preserve_high (shuffle t) n_items _ y y2 hstep k hk q]
      exact hy q

/-- Witness for C10: a run with no items and one trial returns the empty
distribution, and looking up the never-observed key `5` yields `0`. -/
theorem claim_C10_witness :
    shuffle_simulations (fun _ _ => none) 0 1 = Except.ok emptyLanding ∧
    emptyLanding 5 7 = 0 :=
  ⟨rfl, claim_C10 (fun _ _ => none) 0 1 emptyLanding rfl 5 (by decide) 7⟩

end EShuffle
